import Mathlib

/-!
Verification of the dry extraction-and-similarity pipeline.

Source text is modelled as `List Char`.  The JavaScript regular-expression
engine is external to the repository, so a signature match is modelled as the
pair (start offset, matched text) it produces, and the exclude-regex test as a
boolean predicate on the matched text; everything downstream of the matches is
translated directly from `src/src/extract.ts`.
-/

namespace Dry

/-- The curly brace characters, written by code point. -/
def lbrace : Char := Char.ofNat 123

def rbrace : Char := Char.ofNat 125

/-- Whitespace predicate backing the model of JavaScript `String.trim`
(modelled as the common ASCII whitespace characters). -/
def isWS (c : Char) : Bool := c = ' ' || c = '\t' || c = '\n' || c = '\r'

/-- Model of JavaScript `String.trim`. -/
def trim (l : List Char) : List Char :=
  ((l.dropWhile isWS).reverse.dropWhile isWS).reverse

/-- Model of JavaScript `text.split('\n')` on character lists. -/
def splitLines : List Char → List (List Char)
  | [] => [[]]
  | c :: cs =>
    match splitLines cs with
    | [] => [[c]]
    | h :: t => if c = '\n' then [] :: h :: t else (c :: h) :: t

/-- extract.ts lines 10-13: walk back from `position` to the start of its line. -/
def findLineStart (content : List Char) : Nat → Nat
  | 0 => 0
  | p + 1 => if content.get? p = some '\n' then p + 1 else findLineStart content p

/-- extract.ts line 17: `lineContent.includes('//')` — some adjacent pair of
characters is `//`. -/
def hasDoubleSlash : List Char → Bool
  | [] => false
  | [_] => false
  | a :: b :: rest => (a = '/' && b = '/') || hasDoubleSlash (b :: rest)

/-- extract.ts lines 23-29: scan backward from index `i` for the last block
comment opener before the position; the `i > 0` guard of the source loop is the
base case.  The argument is the source loop's running index. -/
def findLastOpen (content : List Char) : Nat → Option Nat
  | 0 => none
  | i + 1 =>
    if content.get? i = some '/' ∧ content.get? (i + 1) = some '*' then some i
    else findLastOpen content i

/-- extract.ts lines 36-40: scan `[i, stop)` for a `*` `/` pair; the source's
`i < content.length - 1` bound is subsumed by `get?` returning `none` out of
bounds.  The loop is written on the fuel `stop - i`, the exact number of
iterations left, so that it is structurally recursive. -/
def hasCloserFuel (content : List Char) : Nat → Nat → Bool
  | 0, _ => false
  | fuel + 1, i =>
    if content.get? i = some '*' ∧ content.get? (i + 1) = some '/' then true
    else hasCloserFuel content fuel (i + 1)

def hasCloser (content : List Char) (stop i : Nat) : Bool :=
  hasCloserFuel content (stop - i) i

/-- extract.ts `isInsideComment`, translated clause for clause. -/
def isInsideComment (content : List Char) (position : Nat) : Bool :=
  let lineStart := findLineStart content position
  let lineContent := (content.take position).drop lineStart
  if hasDoubleSlash lineContent then true
  else
    match findLastOpen content (position - 1) with
    | none => false
    | some lcs => !hasCloser content position (lcs + 2)

/-- extract.ts lines 96-108: scan forward from the end of the signature
(`s` is the first scanned index) for the opening brace of the body; `;`
anywhere, or `}` strictly after the first scanned index, aborts the scan.
Written on the fuel `content.length - i`, the exact number of loop iterations
left, so that it is structurally recursive; fuel 0 is the loop running off the
end with `bodyStartIndex` still `-1`. -/
def findBodyStartFuel (content : List Char) (s : Nat) : Nat → Nat → Option Nat
  | 0, _ => none
  | fuel + 1, i =>
    match content.get? i with
    | none => none
    | some c =>
      if c = lbrace then some i
      else if c = ';' then none
      else if c = rbrace ∧ s < i then none
      else findBodyStartFuel content s fuel (i + 1)

def findBodyStart (content : List Char) (s i : Nat) : Option Nat :=
  findBodyStartFuel content s (content.length - i) i

/-- Brace contribution of one character (extract.ts lines 117-122). -/
def braceDelta (c : Char) : Int :=
  if c = lbrace then 1 else if c = rbrace then -1 else 0

/-- extract.ts lines 112-128: balance braces from index `i` with running count
`count`; returns the exclusive end index (`i + 1` of the closing brace), or
`none` when the count never returns to zero (`bodyEndIndex` stays `-1`).
Written on the fuel `content.length - i`, the exact number of loop iterations
left, so that it is structurally recursive. -/
def scanEndFuel (content : List Char) : Nat → Nat → Int → Option Nat
  | 0, _, _ => none
  | fuel + 1, i, count =>
    match content.get? i with
    | none => none
    | some ch =>
      let c := count + braceDelta ch
      if c = 0 then some (i + 1)
      else scanEndFuel content fuel (i + 1) c

def scanEnd (content : List Char) (i : Nat) (count : Int) : Option Nat :=
  scanEndFuel content (content.length - i) i count

structure ElementMetadata where
  filePath : List Char
  lineNumber : Nat
  elementName : List Char
deriving DecidableEq, Repr

structure ElementData where
  metadata : ElementMetadata
  elementString : List Char
deriving DecidableEq, Repr

/-- One match produced by the external regex engine: start offset, matched
text, and the first capture group (`none` when the pattern has no group). -/
structure MatchInfo where
  start : Nat
  sig : List Char
  group : Option (List Char)
deriving DecidableEq, Repr

/-- extract.ts line 79: `match[1] || signature.trim()`; an empty capture group
is falsy in JavaScript and falls back to the trimmed signature. -/
def elementNameOf (m : MatchInfo) : List Char :=
  match m.group with
  | some g => if g = [] then trim m.sig else g
  | none => trim m.sig

/-- extract.ts lines 92-93: `content.substring(0, start).split('\n').length`. -/
def lineNumberOf (content : List Char) (start : Nat) : Nat :=
  (splitLines (content.take start)).length

/-- The body of the per-match loop of `extractElements`
(extract.ts lines 70-141): exclude test, duplicate-offset test, comment test,
body-start scan, brace balancing, element construction. -/
def processMatch (excluded : List Char → Bool) (filePath content : List Char)
    (seen : List Nat) (m : MatchInfo) : List Nat × Option ElementData :=
  if excluded m.sig then (seen, none)
  else if m.start ∈ seen then (seen, none)
  else if isInsideComment content m.start then (seen, none)
  else
    let s := m.start + m.sig.length
    match findBodyStart content s s with
    | none => (seen, none)
    | some b =>
      match scanEnd content b 0 with
      | none => (seen, none)
      | some e =>
        (m.start :: seen,
         some { metadata := { filePath := filePath,
                              lineNumber := lineNumberOf content m.start,
                              elementName := elementNameOf m },
                elementString := (content.take e).drop m.start })

/-- Fold of `processMatch` over the flattened match list, threading the
`seenPositions` set (extract.ts lines 62-143). -/
def extractGo (excluded : List Char → Bool) (filePath content : List Char) :
    List Nat → List MatchInfo → List ElementData
  | _, [] => []
  | seen, m :: ms =>
    match processMatch excluded filePath content seen m with
    | (seen', none) => extractGo excluded filePath content seen' ms
    | (seen', some el) => el :: extractGo excluded filePath content seen' ms

/-- `extractElements`, parametrised by the matches the include regexes produce
(concatenated in pattern iteration order) and the exclude-regex predicate. -/
def extractElements (excluded : List Char → Bool) (filePath content : List Char)
    (matchList : List MatchInfo) : List ElementData :=
  extractGo excluded filePath content [] matchList

/-!
Embedding service (`src/server/src/embedding.ts`).  The remote embedding
provider is external; `createEmbedding` is therefore parametrised by an oracle
`embedOne` giving the provider's vector for one chunk.  Vector components are
modelled as real numbers.
-/

/-- JavaScript `x || d` on a number that is falsy when `0` or `NaN`/absent
(the latter two modelled as `none`). -/
def jsOrZ (x : Option Int) (d : Int) : Int :=
  match x with
  | none => d
  | some v => if v = 0 then d else v

/-- embedding.ts line 96: `Math.max(100, config.embeddingChunkSize || 1000)`. -/
def effectiveChunkLimit (cfg : Option Int) : Int :=
  max 100 (jsOrZ cfg 1000)

/-- embedding.ts lines 115-120: force-split an overlong line into
`limit`-sized slices, returning the slices and the final remainder (which the
caller carries over as the next `currentChunk`).  The `limit = 0` guard only
bounds the loop (the source always calls this with `limit ≥ 100`); the loop
is written on a fuel that never runs out when it starts at `rem.length`. -/
def forceSplitFuel (limit : Nat) : Nat → List Char → List (List Char) × List Char
  | 0, rem => ([], rem)
  | fuel + 1, rem =>
    if rem.length ≤ limit ∨ limit = 0 then ([], rem)
    else
      let r := forceSplitFuel limit fuel (rem.drop limit)
      (rem.take limit :: r.1, r.2)

def forceSplit (limit : Nat) (rem : List Char) : List (List Char) × List Char :=
  forceSplitFuel limit rem.length rem

/-- embedding.ts lines 101-136: the chunk-packing loop over the split lines,
with `current` the running `currentChunk`.  Each line gets its newline back
except the last (line 106). -/
def packLines (limit : Nat) : List Char → List (List Char) → List (List Char)
  | current, [] => if trim current = [] then [] else [trim current]
  | current, l :: rest =>
    let line := l ++ (if rest = [] then [] else ['\n'])
    if limit < line.length then
      (if current = [] then [] else [trim current]) ++
        (let fs := forceSplit limit line
         fs.1 ++ packLines limit fs.2 rest)
    else if limit < current.length + line.length then
      (if current = [] then [] else [trim current]) ++ packLines limit line rest
    else packLines limit (current ++ line) rest

/-- embedding.ts lines 95-139: `splitIntoChunks` for a given effective limit. -/
def splitChunksWithLimit (limit : Nat) (text : List Char) : List (List Char) :=
  if text.length ≤ limit then [text]
  else (packLines limit [] (splitLines text)).filter (fun c => !c.isEmpty)

/-- embedding.ts `splitIntoChunks`, taking the configured chunk size
(`none` models an absent configuration value). -/
def splitIntoChunks (cfg : Option Int) (text : List Char) : List (List Char) :=
  splitChunksWithLimit (effectiveChunkLimit cfg).toNat text

/-- embedding.ts lines 144-161: sum each coordinate `i < embeddings[0].length`
over all vectors and divide by the count.  A vector shorter than the first
would contribute JavaScript `NaN` at its missing coordinates; the claim's
same-dimensionality precondition keeps every access in range, where the model
(`getD i 0`) agrees with the source. -/
noncomputable def averageEmbeddings (es : List (List ℝ)) : List ℝ :=
  match es with
  | [] => []
  | e0 :: _ =>
    (List.range e0.length).map (fun i =>
      (es.map (fun e => e.getD i 0)).sum / (es.length : ℝ))

/-- embedding.ts lines 13-62: chunk the text, embed each chunk through the
provider oracle, return the single vector unchanged or the average. -/
noncomputable def createEmbedding (embedOne : List Char → List ℝ)
    (cfg : Option Int) (text : List Char) : List ℝ :=
  let es := (splitIntoChunks cfg text).map embedOne
  match es with
  | [e] => e
  | _ => averageEmbeddings es

/-!
Similarity engine and vector store (`similarity.ts`, `vector-db.ts`).
The Valkey/Redis state is modelled as association lists: one for the
`element:<id>` records, the `elements:ids` set (a duplicate-free list), and an
independent namespace of cache entries keyed by
`(fileHash, elementName, lineNumber)`.
-/

/-- similarity.ts lines 160-179, translated clause for clause. -/
noncomputable def cosineSimilarity (a b : List ℝ) : ℝ :=
  if a.length ≠ b.length then 0
  else
    let dot := (List.zipWith (fun x y => x * y) a b).sum
    let mA := Real.sqrt ((a.map (fun x => x * x)).sum)
    let mB := Real.sqrt ((b.map (fun x => x * x)).sum)
    if mA = 0 ∨ mB = 0 then 0
    else dot / (mA * mB)

/-- Sum of squares of a vector (the value under the square root in
similarity.ts lines 168-174). -/
def sumSq (a : List ℝ) : ℝ := (a.map (fun x => x * x)).sum

/-- The dot product loop of similarity.ts line 168. -/
def dotL (a b : List ℝ) : ℝ := (List.zipWith (fun x y => x * y) a b).sum

/-- The vector magnitude `Math.sqrt(mA)` of similarity.ts line 173. -/
noncomputable def magnitude (a : List ℝ) : ℝ := Real.sqrt (sumSq a)

/-- The single failure the similarity service can raise
(similarity.ts line 194); the spec taxonomy calls it `NotFoundError`. -/
inductive ServiceError where
  | notFound : List Char → ServiceError
deriving DecidableEq, Repr

structure EmbeddingIndex where
  id : List Char
  elementData : ElementData
  embedding : List ℝ

structure DbState where
  elements : List (List Char × (ElementData × List ℝ))
  ids : List (List Char)
  cache : List ((List Char × List Char × Nat) × List ℝ)

/-- vector-db.ts `getEmbedding`: `hgetall element:<id>`, `null` when empty. -/
def getEmbedding (s : DbState) (id : List Char) : Option EmbeddingIndex :=
  match s.elements.lookup id with
  | none => none
  | some p => some ⟨id, p.1, p.2⟩

/-- vector-db.ts `getAllEmbeddings`: fetch each member of `elements:ids`,
silently skipping ids whose record is gone. -/
def getAllEmbeddings (s : DbState) : List EmbeddingIndex :=
  s.ids.filterMap (fun id =>
    match s.elements.lookup id with
    | none => none
    | some p => some ⟨id, p.1, p.2⟩)

/-- vector-db.ts lines 94-106: `deleteAllEmbeddings` returns the member count
of `elements:ids` and deletes those records and the set; the cache namespace
is untouched.  Returns the count paired with the new state. -/
def deleteAllEmbeddings (s : DbState) : Nat × DbState :=
  if s.ids = [] then (0, s)
  else
    (s.ids.length,
     { elements := s.elements.filter (fun kv => !(s.ids.contains kv.1)),
       ids := [],
       cache := s.cache })

/-- vector-db.ts lines 138-142: cache lookup by
`(fileHash, elementName, lineNumber)`. -/
def getCachedEmbedding (s : DbState) (fileHash elementName : List Char)
    (lineNumber : Nat) : Option (List ℝ) :=
  s.cache.lookup (fileHash, elementName, lineNumber)

/-- Stable descending insertion used to model
`sort((a, b) => b.similarity - a.similarity)`; only the membership of the
sorted list matters for the claims (the source comparator fixes no tie
order). -/
noncomputable def insertDesc (p : ElementData × ℝ) :
    List (ElementData × ℝ) → List (ElementData × ℝ)
  | [] => [p]
  | q :: qs => if q.2 ≤ p.2 then p :: q :: qs else q :: insertDesc p qs

noncomputable def sortDesc (l : List (ElementData × ℝ)) : List (ElementData × ℝ) :=
  l.foldr insertDesc []

/-- similarity.ts lines 191-212: `findSimilar` — target lookup, self
exclusion, similarity map, threshold filter, descending sort, truncation,
projection to the element data. -/
noncomputable def findSimilar (s : DbState) (id : List Char) (threshold : ℝ)
    (limit : Nat) : Except ServiceError (List ElementData) :=
  match getEmbedding s id with
  | none => Except.error (ServiceError.notFound id)
  | some target =>
    Except.ok
      (((sortDesc
          ((((getAllEmbeddings s).filter (fun item => item.id != id)).map
              (fun item =>
                (item.elementData,
                 cosineSimilarity target.embedding item.embedding))).filter
            (fun p => decide (threshold ≤ p.2)))).take limit).map Prod.fst)

/-!
HTTP query-parameter handling (`src/server/src/server.ts` lines 181-236).
`parseFloat`/`parseInt` are external JavaScript builtins; a parse result is
modelled as `none` for `NaN` (missing or non-numeric parameter) and `some v`
for a numeric parse, so `parseFloat(q) || 0.8` becomes `jsOrQ`.
-/

/-- JavaScript `x || d` on a parsed float (falsy on `NaN` and `0`). -/
def jsOrQ (x : Option ℚ) (d : ℚ) : ℚ :=
  match x with
  | none => d
  | some v => if v = 0 then d else v

/-- server.ts lines 183-184 (`GET /similar/all`). -/
def similarAllQueryParams (threshold : Option ℚ) (limit : Option Int) : ℚ × Int :=
  (jsOrQ threshold (8 / 10), jsOrZ limit 10)

/-- server.ts lines 202-203 (`GET /similar/:id`). -/
def similarByIdQueryParams (threshold : Option ℚ) (limit : Option Int) : ℚ × Int :=
  (jsOrQ threshold (8 / 10), jsOrZ limit 10)

/-- server.ts lines 225-226 (`GET /search`). -/
def searchQueryParams (threshold : Option ℚ) (limit : Option Int) : ℚ × Int :=
  (jsOrQ threshold (8 / 10), jsOrZ limit 10)

/-!
Spec-side definitions.  These follow the words of the claims being checked
(not the source) and exist only to be compared with the translated code.
-/

/-- Running brace balance of `content[b..e]` inclusive: the sum of `+1` per
opening and `-1` per closing brace, as in claim C1's characterisation of the
body end. -/
def braceSum (content : List Char) (b e : Nat) : Int :=
  (((content.take (e + 1)).drop b).map braceDelta).sum

/-- Claim C5 as stated: the match start lies after a complete `//` earlier on
its line, or inside a block comment whose opener lies entirely before the
match start and that no complete `*'/'` closer lying entirely before the match
start has closed. -/
def insideCommentSpec (content : List Char) (position : Nat) : Prop :=
  (∃ p, findLineStart content position ≤ p ∧ p + 1 < position ∧
    content.get? p = some '/' ∧ content.get? (p + 1) = some '/') ∨
  (∃ j, j + 1 < position ∧ content.get? j = some '/' ∧
    content.get? (j + 1) = some '*' ∧
    ∀ k, j + 2 ≤ k → k + 1 < position →
      ¬(content.get? k = some '*' ∧ content.get? (k + 1) = some '/'))

/-- Claim C5 amended to the source's closer rule: a closer whose `*` lies
strictly before the match start counts as closing the comment even when its
`/` falls exactly on the match start. -/
def insideCommentAmended (content : List Char) (position : Nat) : Prop :=
  (∃ p, findLineStart content position ≤ p ∧ p + 1 < position ∧
    content.get? p = some '/' ∧ content.get? (p + 1) = some '/') ∨
  (∃ j, j + 1 < position ∧ content.get? j = some '/' ∧
    content.get? (j + 1) = some '*' ∧
    ∀ k, j + 2 ≤ k → k < position →
      ¬(content.get? k = some '*' ∧ content.get? (k + 1) = some '/'))

/-- Claim C7 as stated: scanning forward from the end of the signature
(`s`), a `;` or a `}` occurs before the first `{` (every such `}` is
unmatched, since no `{` precedes it in the scanned span). -/
def declOnlySpec (content : List Char) (s : Nat) : Prop :=
  ∃ i, s ≤ i ∧ (content.get? i = some ';' ∨ content.get? i = some rbrace) ∧
    ∀ j, s ≤ j → j < i → content.get? j ≠ some lbrace

/-- Claim C7 amended to the source's guard: a `}` at the very first scanned
position is ignored; only a `;`, or a `}` strictly after the first scanned
position, discards the candidate. -/
def declOnlyAmended (content : List Char) (s : Nat) : Prop :=
  ∃ i, s ≤ i ∧
    (content.get? i = some ';' ∨ (content.get? i = some rbrace ∧ s < i)) ∧
    ∀ j, s ≤ j → j < i → content.get? j ≠ some lbrace

/-- Reattach the `'\n'` to every split line but the last, as the claim's
"split by line" packing consumes them (spec side of claim C3). -/
def glueLines : List (List Char) → List (List Char)
  | [] => []
  | [l] => [l]
  | l :: rest => (l ++ ['\n']) :: glueLines rest

/-- One step of the amended claim C3's packing, as a state machine over
(emitted chunks, current chunk): an overlong line flushes the trimmed current
chunk and emits its untrimmed limit-sized slices, carrying the remainder; a
line that would overflow the current chunk flushes it trimmed; otherwise the
line is appended. -/
def specStep (limit : Nat) (st : List (List Char) × List Char)
    (line : List Char) : List (List Char) × List Char :=
  if limit < line.length then
    (st.1 ++ (if st.2 = [] then [] else [trim st.2]) ++ (forceSplit limit line).1,
     (forceSplit limit line).2)
  else if limit < st.2.length + line.length then
    (st.1 ++ (if st.2 = [] then [] else [trim st.2]), line)
  else (st.1, st.2 ++ line)

/-- Amended claim C3, modelled from its words: text within the limit is one
chunk; otherwise the glued lines are packed by `specStep`, the final current
chunk is emitted trimmed when not blank, and zero-length chunks are dropped. -/
def specSplitIntoChunks (cfg : Option Int) (text : List Char) :
    List (List Char) :=
  let limit := (effectiveChunkLimit cfg).toNat
  if text.length ≤ limit then [text]
  else
    let st := (glueLines (splitLines text)).foldl (specStep limit) ([], [])
    (st.1 ++ (if trim st.2 = [] then [] else [trim st.2])).filter
      (fun c => decide (c ≠ []))

/-!
Concrete fixtures for counterexamples and witnesses.
-/

/-- The text `/* */f(){}`: a block comment whose closer's `/` is the start of
the signature match. -/
def c5content : List Char := ['/', '*', ' ', '*', '/', 'f', '(', ')', lbrace, rbrace]

def c5match : MatchInfo := ⟨4, ['/', 'f', '(', ')'], none⟩

def c5elem : ElementData :=
  ⟨⟨[], 1, ['/', 'f', '(', ')']⟩, ['/', 'f', '(', ')', lbrace, rbrace]⟩

/-- The text `foo}{}`: a `}` immediately after the signature, before the first
`{`. -/
def c7content : List Char := ['f', 'o', 'o', rbrace, lbrace, rbrace]

def c7match : MatchInfo := ⟨0, ['f', 'o', 'o'], none⟩

def c7elem : ElementData := ⟨⟨[], 1, ['f', 'o', 'o']⟩, c7content⟩

/-- The text `f(){{}}`, a signature followed by a nested-brace body. -/
def c1content : List Char := ['f', '(', ')', lbrace, lbrace, rbrace, rbrace]

def c1match : MatchInfo := ⟨0, ['f', '(', ')'], none⟩

def dataA : ElementData := ⟨⟨['f'], 1, ['a']⟩, ['a']⟩

def dataB : ElementData := ⟨⟨['f'], 2, ['b']⟩, ['b']⟩

/-- Two stored records with equal one-dimensional embeddings. -/
noncomputable def dbPair : DbState :=
  ⟨[(['a'], (dataA, [1])), (['b'], (dataB, [1]))], [['a'], ['b']], []⟩

/-- One tracked record, one untracked (orphan) record, one cache entry. -/
noncomputable def db8 : DbState :=
  ⟨[(['a'], (dataA, [1])), (['o'], (dataB, [2]))], [['a']],
   [((['h'], ['n'], 3), [5])]⟩

/-- A provider oracle mapping a chunk to the one-dimensional vector holding
its length. -/
noncomputable def lenOracle : List Char → List ℝ := fun c => [(c.length : ℝ)]

/-!
Theorems.  Shared helper lemmas come first, then one theorem per claim with
its witness or counterexample.
-/

theorem jsOrQ_ne_zero (x : Option ℚ) (d : ℚ) (hd : d ≠ 0) : jsOrQ x d ≠ 0 := by
  cases x with
  | none => simpa [jsOrQ] using hd
  | some v =>
    by_cases hv : v = 0 <;> simp [jsOrQ, hv, hd]

theorem jsOrZ_ne_zero (x : Option Int) (d : Int) (hd : d ≠ 0) : jsOrZ x d ≠ 0 := by
  cases x with
  | none => simpa [jsOrZ] using hd
  | some v =>
    by_cases hv : v = 0 <;> simp [jsOrZ, hv, hd]

/-- C9: in the `GET /similar/all`, `GET /similar/:id` and `GET /search`
handlers, a `threshold` query parameter that is missing, non-numeric, or
parses to exactly 0 is replaced by the default `0.8`; a `limit` parameter
that is missing, non-numeric, or parses to 0 is replaced by `10`; hence no
request can effectively use threshold 0 or limit 0. -/
theorem C9_query_param_defaults (t : Option ℚ) (l : Option Int) :
    ((t = none ∨ t = some 0) →
      (similarAllQueryParams t l).1 = 8 / 10 ∧
      (similarByIdQueryParams t l).1 = 8 / 10 ∧
      (searchQueryParams t l).1 = 8 / 10) ∧
    ((l = none ∨ l = some 0) →
      (similarAllQueryParams t l).2 = 10 ∧
      (similarByIdQueryParams t l).2 = 10 ∧
      (searchQueryParams t l).2 = 10) ∧
    (similarAllQueryParams t l).1 ≠ 0 ∧ (similarAllQueryParams t l).2 ≠ 0 ∧
    (similarByIdQueryParams t l).1 ≠ 0 ∧ (similarByIdQueryParams t l).2 ≠ 0 ∧
    (searchQueryParams t l).1 ≠ 0 ∧ (searchQueryParams t l).2 ≠ 0 := by
  have hq : jsOrQ t (8 / 10) ≠ 0 := jsOrQ_ne_zero t _ (by norm_num)
  have hz : jsOrZ l 10 ≠ 0 := jsOrZ_ne_zero l _ (by norm_num)
  refine ⟨?_, ?_, hq, hz, hq, hz, hq, hz⟩
  · rintro (rfl | rfl) <;>
      simp [similarAllQueryParams, similarByIdQueryParams, searchQueryParams, jsOrQ]
  · rintro (rfl | rfl) <;>
      simp [similarAllQueryParams, similarByIdQueryParams, searchQueryParams, jsOrZ]

theorem C9_witness :
    (similarAllQueryParams none (some 0)).1 = 8 / 10 ∧
    (similarAllQueryParams none (some 0)).2 = 10 ∧
    (searchQueryParams none (some 0)).1 ≠ 0 := by
  have h := C9_query_param_defaults none (some 0)
  exact ⟨(h.1 (Or.inl rfl)).1, (h.2.1 (Or.inr rfl)).1, h.2.2.2.2.2.2.1⟩

/-- C10: `splitIntoChunks` always uses the effective limit
`max(100, embeddingChunkSize || 1000)`: 1000 is substituted when the
configured value is absent or 0, and any other configured value below 100 is
silently raised to 100 before any chunking decision (the value 0 is the one
below-100 value the source maps to 1000 instead, as the claim's first half
itself states). -/
theorem C10_effective_chunk_limit :
    (∀ cfg text, splitIntoChunks cfg text =
      splitChunksWithLimit (effectiveChunkLimit cfg).toNat text) ∧
    effectiveChunkLimit none = 1000 ∧
    effectiveChunkLimit (some 0) = 1000 ∧
    (∀ v : Int, v ≠ 0 → v < 100 → effectiveChunkLimit (some v) = 100) ∧
    (∀ v : Int, 100 ≤ v → effectiveChunkLimit (some v) = v) ∧
    (∀ cfg, 100 ≤ effectiveChunkLimit cfg) := by
  refine ⟨fun cfg text => rfl, rfl, rfl, ?_, ?_, ?_⟩
  · intro v hv hlt
    simp only [effectiveChunkLimit, jsOrZ, if_neg hv]
    omega
  · intro v hv
    have hv0 : v ≠ 0 := by omega
    simp only [effectiveChunkLimit, jsOrZ, if_neg hv0]
    omega
  · intro cfg
    exact le_max_left _ _

theorem C10_witness :
    ((7 : Int) ≠ 0 ∧ (7 : Int) < 100 ∧ effectiveChunkLimit (some 7) = 100) ∧
    ((100 : Int) ≤ 250 ∧ effectiveChunkLimit (some 250) = 250) := by
  refine ⟨⟨by norm_num, by norm_num, ?_⟩, ⟨by norm_num, ?_⟩⟩
  · exact C10_effective_chunk_limit.2.2.2.1 7 (by norm_num) (by norm_num)
  · exact C10_effective_chunk_limit.2.2.2.2.1 250 (by norm_num)

theorem sumSq_cons (x : ℝ) (a : List ℝ) : sumSq (x :: a) = x * x + sumSq a := by
  simp [sumSq]

theorem sumSq_nonneg (a : List ℝ) : 0 ≤ sumSq a := by
  induction a with
  | nil => simp [sumSq]
  | cons x a ih => rw [sumSq_cons]; nlinarith [mul_self_nonneg x]

theorem cs_step (x y S A B : ℝ) (hA : 0 ≤ A) (hB : 0 ≤ B) (h : S ^ 2 ≤ A * B) :
    (x * y + S) ^ 2 ≤ (x * x + A) * (y * y + B) := by
  rcases eq_or_lt_of_le hB with hB0 | hBpos
  · have hS : S = 0 := by nlinarith [sq_nonneg S]
    subst hS
    rw [← hB0]
    nlinarith [mul_nonneg hA (mul_self_nonneg y)]
  · nlinarith [sq_nonneg (x * B - y * S),
      mul_nonneg (add_nonneg (mul_self_nonneg y) hB) (sub_nonneg.mpr h)]

theorem dotL_cons (x y : ℝ) (a b : List ℝ) :
    dotL (x :: a) (y :: b) = x * y + dotL a b := by
  simp [dotL]

theorem list_cauchy : ∀ a b : List ℝ, (dotL a b) ^ 2 ≤ sumSq a * sumSq b := by
  intro a
  induction a with
  | nil => intro b; simp [dotL, sumSq]
  | cons x a ih =>
    intro b
    cases b with
    | nil => simp [dotL, sumSq]
    | cons y b =>
      rw [dotL_cons, sumSq_cons, sumSq_cons]
      exact cs_step x y _ _ _ (sumSq_nonneg a) (sumSq_nonneg b) (ih b)

theorem magnitude_mul_self (a : List ℝ) : magnitude a * magnitude a = sumSq a :=
  Real.mul_self_sqrt (sumSq_nonneg a)

/-- C2: `cosineSimilarity` returns exactly 0 when the vectors differ in length
or either has zero magnitude (no error in these cases, the function is total);
otherwise it returns the dot product divided by the product of the two
magnitudes, a value in `[-1, 1]`. -/
theorem C2_cosineSimilarity_spec (a b : List ℝ) :
    ((a.length ≠ b.length ∨ magnitude a = 0 ∨ magnitude b = 0) →
      cosineSimilarity a b = 0) ∧
    (a.length = b.length → magnitude a ≠ 0 → magnitude b ≠ 0 →
      cosineSimilarity a b = dotL a b / (magnitude a * magnitude b) ∧
      -1 ≤ cosineSimilarity a b ∧ cosineSimilarity a b ≤ 1) := by
  constructor
  · rintro (h | h | h)
    · simp [cosineSimilarity, h]
    · by_cases hl : a.length = b.length
      · simp only [magnitude, sumSq] at h
        simp [cosineSimilarity, hl, h]
      · simp [cosineSimilarity, hl]
    · by_cases hl : a.length = b.length
      · simp only [magnitude, sumSq] at h
        simp [cosineSimilarity, hl, h]
      · simp [cosineSimilarity, hl]
  · intro hl ha hb
    have ha' : (Real.sqrt ((a.map (fun x => x * x)).sum)) ≠ 0 := ha
    have hb' : (Real.sqrt ((b.map (fun x => x * x)).sum)) ≠ 0 := hb
    have hval : cosineSimilarity a b = dotL a b / (magnitude a * magnitude b) := by
      simp only [cosineSimilarity, magnitude, sumSq, dotL]
      rw [if_neg (by simp [hl]), if_neg (by push_neg; exact ⟨ha', hb'⟩)]
    have hma : 0 < magnitude a :=
      lt_of_le_of_ne (Real.sqrt_nonneg _) (Ne.symm ha)
    have hmb : 0 < magnitude b :=
      lt_of_le_of_ne (Real.sqrt_nonneg _) (Ne.symm hb)
    have hm : 0 < magnitude a * magnitude b := mul_pos hma hmb
    have hm2 : (magnitude a * magnitude b) * (magnitude a * magnitude b) =
        sumSq a * sumSq b := by
      rw [mul_mul_mul_comm, magnitude_mul_self, magnitude_mul_self]
    have hcs := list_cauchy a b
    refine ⟨hval, ?_, ?_⟩
    · rw [hval, le_div_iff₀ hm]
      nlinarith [sq_nonneg (dotL a b + magnitude a * magnitude b)]
    · rw [hval, div_le_iff₀ hm]
      nlinarith [sq_nonneg (dotL a b - magnitude a * magnitude b)]

theorem glueLines_cons (l : List Char) (rest : List (List Char)) :
    glueLines (l :: rest) =
      (l ++ (if rest = [] then [] else ['\n'])) :: glueLines rest := by
  cases rest with
  | nil => simp [glueLines]
  | cons a t => simp [glueLines]

theorem packLines_cons (limit : Nat) (current l : List Char)
    (rest : List (List Char)) :
    packLines limit current (l :: rest) =
      (if limit < (l ++ (if rest = [] then [] else ['\n'])).length then
        (if current = [] then [] else [trim current]) ++
          ((forceSplit limit (l ++ (if rest = [] then [] else ['\n']))).1 ++
            packLines limit
              (forceSplit limit (l ++ (if rest = [] then [] else ['\n']))).2 rest)
      else if limit < current.length +
          (l ++ (if rest = [] then [] else ['\n'])).length then
        (if current = [] then [] else [trim current]) ++
          packLines limit (l ++ (if rest = [] then [] else ['\n'])) rest
      else packLines limit (current ++ (l ++ (if rest = [] then [] else ['\n']))) rest) :=
  rfl

theorem pack_fold (limit : Nat) :
    ∀ (ls : List (List Char)) (chunks : List (List Char)) (current : List Char),
      ((glueLines ls).foldl (specStep limit) (chunks, current)).1 ++
        (if trim ((glueLines ls).foldl (specStep limit) (chunks, current)).2 = []
         then []
         else [trim ((glueLines ls).foldl (specStep limit) (chunks, current)).2]) =
      chunks ++ packLines limit current ls := by
  intro ls
  induction ls with
  | nil =>
    intro chunks current
    by_cases ht : trim current = [] <;> simp [glueLines, packLines, ht]
  | cons l rest ih =>
    intro chunks current
    rw [glueLines_cons]
    simp only [List.foldl_cons]
    rw [packLines_cons]
    simp only [specStep]
    by_cases h1 : limit < (l ++ (if rest = [] then [] else ['\n'])).length
    · rw [if_pos h1, if_pos h1, ih]
      simp [List.append_assoc]
    · rw [if_neg h1, if_neg h1]
      by_cases h2 : limit < current.length +
          (l ++ (if rest = [] then [] else ['\n'])).length
      · rw [if_pos h2, if_pos h2, ih]
        simp [List.append_assoc]
      · rw [if_neg h2, if_neg h2, ih]

set_option maxRecDepth 10000

/-- C3 counterexample: on 250 spaces with effective limit 100, the split
branch is taken and the output is two 100-space chunks, each of which is
empty after trimming and nevertheless kept — the claim's final clause
"chunks that are empty after trimming are dropped" fails on the force-split
slices of an overlong line. -/
theorem C3_counterexample :
    100 < (List.replicate 250 ' ').length ∧
    splitIntoChunks (some 100) (List.replicate 250 ' ') =
      [List.replicate 100 ' ', List.replicate 100 ' '] ∧
    trim (List.replicate 100 ' ') = [] := by decide

/-- C3 amended: chunking behaves as the claim states, except that only the
chunks assembled from whole lines are trimmed (and dropped when blank); the
limit-sized slices of a force-split overlong line are emitted untrimmed, and
only zero-length chunks are dropped from the result.  `specSplitIntoChunks`
is modelled from these words and the source chunker equals it. -/
theorem C3_amended_split (cfg : Option Int) (text : List Char) :
    splitIntoChunks cfg text = specSplitIntoChunks cfg text := by
  unfold splitIntoChunks splitChunksWithLimit specSplitIntoChunks
  by_cases h : text.length ≤ (effectiveChunkLimit cfg).toNat
  · simp [h]
  · simp only [if_neg h]
    have hp := pack_fold (effectiveChunkLimit cfg).toNat (splitLines text) [] []
    rw [List.nil_append] at hp
    rw [← hp]
    have hfun : (fun c : List Char => !c.isEmpty) =
        (fun c : List Char => decide (c ≠ [])) := by
      funext c
      cases c <;> rfl
    rw [hfun]

/-- C4: when `createEmbedding`'s input splits into exactly one chunk, that
chunk's vector is returned unchanged; when it splits into more than one chunk,
under the precondition that every chunk vector has the same dimensionality
`d`, the returned vector is the element-wise arithmetic mean of all chunk
vectors. -/
theorem C4_createEmbedding_mean (embedOne : List Char → List ℝ)
    (cfg : Option Int) (text : List Char) (d : Nat) :
    (∀ c, splitIntoChunks cfg text = [c] →
      createEmbedding embedOne cfg text = embedOne c) ∧
    (1 < (splitIntoChunks cfg text).length →
      (∀ c ∈ splitIntoChunks cfg text, (embedOne c).length = d) →
      (createEmbedding embedOne cfg text).length = d ∧
      ∀ i, i < d →
        (createEmbedding embedOne cfg text).getD i 0 =
          (((splitIntoChunks cfg text).map embedOne).map
              (fun e => e.getD i 0)).sum /
            (((splitIntoChunks cfg text).map embedOne).length : ℝ)) := by
  constructor
  · intro c hc
    simp [createEmbedding, hc]
  · intro hlen hdim
    obtain ⟨c1, c2, cs, hchunks⟩ :
        ∃ c1 c2 cs, splitIntoChunks cfg text = c1 :: c2 :: cs := by
      cases hl : splitIntoChunks cfg text with
      | nil => rw [hl] at hlen; simp at hlen
      | cons c1 t =>
        cases t with
        | nil => rw [hl] at hlen; simp at hlen
        | cons c2 cs => exact ⟨c1, c2, cs, rfl⟩
    have hcreate : createEmbedding embedOne cfg text =
        averageEmbeddings ((c1 :: c2 :: cs).map embedOne) := by
      simp [createEmbedding, hchunks]
    have he1 : (embedOne c1).length = d :=
      hdim c1 (by rw [hchunks]; exact List.mem_cons_self _ _)
    constructor
    · rw [hcreate]
      simp [averageEmbeddings, he1]
    · intro i hi
      rw [hcreate, hchunks]
      simp only [averageEmbeddings, List.map_cons]
      rw [List.getD_eq_getElem?_getD, List.getElem?_map,
        List.getElem?_range (by rw [he1]; exact hi)]
      simp

set_option maxRecDepth 20000

theorem C4_witness :
    1 < (splitIntoChunks (some 100) (List.replicate 150 'a')).length ∧
    (∀ c ∈ splitIntoChunks (some 100) (List.replicate 150 'a'),
      (lenOracle c).length = 1) ∧
    (createEmbedding lenOracle (some 100) (List.replicate 150 'a')).length = 1 ∧
    (createEmbedding lenOracle (some 100) (List.replicate 150 'a')).getD 0 0 =
      (((splitIntoChunks (some 100) (List.replicate 150 'a')).map lenOracle).map
          (fun e => e.getD 0 0)).sum /
        (((splitIntoChunks (some 100) (List.replicate 150 'a')).map
            lenOracle).length : ℝ) := by
  have h := C4_createEmbedding_mean lenOracle (some 100) (List.replicate 150 'a') 1
  have h1 : 1 < (splitIntoChunks (some 100) (List.replicate 150 'a')).length := by
    decide
  have h2 : ∀ c ∈ splitIntoChunks (some 100) (List.replicate 150 'a'),
      (lenOracle c).length = 1 := fun c _ => rfl
  exact ⟨h1, h2, (h.2 h1 h2).1, (h.2 h1 h2).2 0 (by norm_num)⟩

theorem get?_some_lt_length {l : List Char} {n : Nat} {a : Char}
    (h : l.get? n = some a) : n < l.length := by
  rw [List.get?_eq_getElem?] at h
  exact (List.getElem?_eq_some.1 h).1

theorem hasDoubleSlash_iff : ∀ l : List Char,
    hasDoubleSlash l = true ↔
      ∃ i, l.get? i = some '/' ∧ l.get? (i + 1) = some '/' := by
  intro l
  induction l with
  | nil =>
    simp only [hasDoubleSlash, Bool.false_eq_true, false_iff]
    rintro ⟨i, h1, h2⟩
    simp at h1
  | cons a t ih =>
    cases t with
    | nil =>
      simp only [hasDoubleSlash, Bool.false_eq_true, false_iff]
      rintro ⟨i, h1, h2⟩
      cases i with
      | zero => simp at h2
      | succ i => simp at h1
    | cons b r =>
      constructor
      · intro h
        simp only [hasDoubleSlash, Bool.or_eq_true, Bool.and_eq_true,
          decide_eq_true_eq] at h
        rcases h with ⟨ha, hb⟩ | h
        · exact ⟨0, by simp [ha], by simp [hb]⟩
        · obtain ⟨i, h1, h2⟩ := ih.1 h
          exact ⟨i + 1, by simpa using h1, by simpa using h2⟩
      · rintro ⟨i, h1, h2⟩
        cases i with
        | zero =>
          simp only [List.get?_cons_zero, List.get?_cons_succ,
            Option.some_inj] at h1 h2
          simp [hasDoubleSlash, h1, h2]
        | succ i =>
          simp only [List.get?_cons_succ] at h1 h2
          have : hasDoubleSlash (b :: r) = true := ih.2 ⟨i, h1, h2⟩
          simp [hasDoubleSlash, this]

theorem slice_get? (content : List Char) (pos ls i : Nat) :
    ((content.take pos).drop ls).get? i =
      if ls + i < pos then content.get? (ls + i) else none := by
  rw [List.get?_eq_getElem?, List.getElem?_drop, List.getElem?_take]
  split
  · rw [List.get?_eq_getElem?]
  · rfl

theorem findLastOpen_none (content : List Char) : ∀ i,
    findLastOpen content i = none →
    ∀ t, t + 1 ≤ i →
      ¬(content.get? t = some '/' ∧ content.get? (t + 1) = some '*') := by
  intro i
  induction i with
  | zero => intro _ t ht; omega
  | succ i ih =>
    intro h t ht hop
    rw [findLastOpen] at h
    by_cases hc : content.get? i = some '/' ∧ content.get? (i + 1) = some '*'
    · rw [if_pos hc] at h; exact Option.noConfusion h
    · rw [if_neg hc] at h
      rcases Nat.lt_or_ge (t + 1) (i + 1) with hlt | hge
      · exact ih h t (by omega) hop
      · have : t = i := by omega
        exact hc (this ▸ hop)

theorem findLastOpen_some (content : List Char) : ∀ i t,
    findLastOpen content i = some t →
    (content.get? t = some '/' ∧ content.get? (t + 1) = some '*') ∧
    t + 1 ≤ i ∧
    ∀ u, t < u → u + 1 ≤ i →
      ¬(content.get? u = some '/' ∧ content.get? (u + 1) = some '*') := by
  intro i
  induction i with
  | zero => intro t h; exact Option.noConfusion h
  | succ i ih =>
    intro t h
    rw [findLastOpen] at h
    by_cases hc : content.get? i = some '/' ∧ content.get? (i + 1) = some '*'
    · rw [if_pos hc] at h
      obtain rfl : i = t := Option.some_inj.1 h
      exact ⟨hc, le_refl _, fun u hu1 hu2 => by omega⟩
    · rw [if_neg hc] at h
      obtain ⟨hop, hle, hmax⟩ := ih t h
      refine ⟨hop, by omega, fun u hu1 hu2 => ?_⟩
      rcases Nat.lt_or_ge (u + 1) (i + 1) with hlt | hge
      · exact hmax u hu1 (by omega)
      · have : u = i := by omega
        exact this ▸ hc

theorem hasCloserFuel_iff (content : List Char) : ∀ fuel i,
    hasCloserFuel content fuel i = true ↔
      ∃ k, i ≤ k ∧ k < i + fuel ∧
        content.get? k = some '*' ∧ content.get? (k + 1) = some '/' := by
  intro fuel
  induction fuel with
  | zero =>
    intro i
    simp only [hasCloserFuel, Bool.false_eq_true, false_iff]
    rintro ⟨k, h1, h2, _⟩
    omega
  | succ fuel ih =>
    intro i
    rw [hasCloserFuel]
    by_cases hc : content.get? i = some '*' ∧ content.get? (i + 1) = some '/'
    · rw [if_pos hc]
      simp only [true_iff]
      exact ⟨i, le_refl _, by omega, hc⟩
    · rw [if_neg hc, ih]
      constructor
      · rintro ⟨k, h1, h2, h3⟩
        exact ⟨k, by omega, by omega, h3⟩
      · rintro ⟨k, h1, h2, h3⟩
        have : k ≠ i := fun h => hc (h ▸ h3)
        exact ⟨k, by omega, by omega, h3⟩

theorem hasCloser_iff (content : List Char) (stop i : Nat) (h : i ≤ stop) :
    hasCloser content stop i = true ↔
      ∃ k, i ≤ k ∧ k < stop ∧
        content.get? k = some '*' ∧ content.get? (k + 1) = some '/' := by
  rw [hasCloser, hasCloserFuel_iff]
  constructor
  · rintro ⟨k, h1, h2, h3⟩
    exact ⟨k, h1, by omega, h3⟩
  · rintro ⟨k, h1, h2, h3⟩
    exact ⟨k, h1, by omega, h3⟩

/-- The amended inside-a-comment condition forces the source's
`isInsideComment` check to fire. -/
theorem insideAmended_isInside (content : List Char) (pos : Nat)
    (h : insideCommentAmended content pos) : isInsideComment content pos = true := by
  by_cases hd : hasDoubleSlash ((content.take pos).drop (findLineStart content pos)) = true
  · simp [isInsideComment, hd]
  · rcases h with ⟨p, hp1, hp2, hp3, hp4⟩ | ⟨j, hj1, hj2, hj3, hj4⟩
    · exfalso
      apply hd
      rw [hasDoubleSlash_iff]
      refine ⟨p - findLineStart content pos, ?_, ?_⟩
      · rw [slice_get?, if_pos (by omega)]
        have : findLineStart content pos + (p - findLineStart content pos) = p := by
          omega
        rw [this]; exact hp3
      · rw [slice_get?, if_pos (by omega)]
        have : findLineStart content pos + (p - findLineStart content pos + 1) = p + 1 := by
          omega
        rw [this]; exact hp4
    · have hpos2 : 2 ≤ pos := by omega
      have hne : ¬(findLastOpen content (pos - 1) = none) := by
        intro hn
        exact findLastOpen_none content (pos - 1) hn j (by omega) ⟨hj2, hj3⟩
      obtain ⟨lcs, hlcs⟩ := Option.ne_none_iff_exists'.1 hne
      obtain ⟨hop, hle, hmax⟩ := findLastOpen_some content (pos - 1) lcs hlcs
      have hjl : j ≤ lcs := by
        by_contra hgt
        exact hmax j (by omega) (by omega) ⟨hj2, hj3⟩
      have hcl : hasCloser content pos (lcs + 2) = false := by
        rw [Bool.eq_false_iff]
        intro hc
        obtain ⟨k, hk1, hk2, hk3⟩ := (hasCloser_iff content pos (lcs + 2) (by omega)).1 hc
        exact hj4 k (by omega) (by omega) hk3
      simp [isInsideComment, hd, hlcs, hcl]

/-- C5 amended: extraction never emits an element for a match that starts
after a complete `//` earlier on its line, or inside a block comment opened
(by a complete `/*`) strictly before the match start and not closed by a
`*'/'` closer whose `*` lies strictly before the match start (a closer
straddling the match start counts as closing the comment). -/
theorem C5_amended_comment_skip (excluded : List Char → Bool)
    (filePath content : List Char) (seen : List Nat) (m : MatchInfo)
    (h : insideCommentAmended content m.start) :
    processMatch excluded filePath content seen m = (seen, none) := by
  have hc := insideAmended_isInside content m.start h
  simp [processMatch, hc]

theorem C5_amended_witness :
    processMatch (fun _ => false) [] ['/', '*', 'a', lbrace, rbrace] []
      ⟨2, ['a'], none⟩ = ([], none) := by
  apply C5_amended_comment_skip
  show insideCommentAmended ['/', '*', 'a', lbrace, rbrace] 2
  refine Or.inr ⟨0, by norm_num, by decide, by decide, ?_⟩
  exact fun k hk1 hk2 => absurd hk2 (by omega)

/-- C5 counterexample: in `/* */f(){}` the match at offset 4 (the final `/`
of the comment closer) starts inside a block comment per the claim's
condition — opened strictly before offset 4 and not closed before offset 4 —
yet extraction emits an element for it. -/
theorem C5_counterexample :
    insideCommentSpec c5content 4 ∧
    extractElements (fun _ => false) [] c5content [c5match] = [c5elem] := by
  constructor
  · refine Or.inr ⟨0, by norm_num, by decide, by decide, ?_⟩
    intro k hk1 hk2
    have hk : k = 2 := by omega
    subst hk
    decide
  · decide

theorem findBodyStartFuel_none (content : List Char) (s : Nat) : ∀ fuel i,
    fuel = content.length - i → s ≤ i →
    (∃ q, i ≤ q ∧
      (content.get? q = some ';' ∨ (content.get? q = some rbrace ∧ s < q)) ∧
      ∀ j, i ≤ j → j < q → content.get? j ≠ some lbrace) →
    findBodyStartFuel content s fuel i = none := by
  intro fuel
  induction fuel with
  | zero =>
    intro i _ _ _
    rfl
  | succ fuel ih =>
    intro i hfuel hsi hq
    obtain ⟨q, hiq, hstop, hnob⟩ := hq
    have hqlen : q < content.length := by
      rcases hstop with h | ⟨h, _⟩ <;> exact get?_some_lt_length h
    have hilen : i < content.length := by omega
    rw [findBodyStartFuel]
    obtain ⟨c, hc⟩ : ∃ c, content.get? i = some c := by
      rw [List.get?_eq_getElem?]
      exact ⟨content[i], List.getElem?_eq_some.2 ⟨hilen, rfl⟩⟩
    rw [hc]
    dsimp only
    have hqi : q = i ∨ i < q := by omega
    by_cases hlb : c = lbrace
    · exfalso
      rcases hqi with rfl | hlt
      · rcases hstop with h | ⟨h, _⟩ <;>
          exact absurd (Option.some_inj.1 (hc.symm.trans h)) (by subst hlb; decide)
      · apply hnob i (le_refl i) hlt
        rw [hc, hlb]
    · rw [if_neg hlb]
      by_cases hsemi : c = ';'
      · rw [if_pos hsemi]
      · rw [if_neg hsemi]
        by_cases hrb : c = rbrace ∧ s < i
        · rw [if_pos hrb]
        · rw [if_neg hrb]
          have hqi2 : i < q := by
            rcases hqi with rfl | hlt
            · exfalso
              rcases hstop with h | ⟨h, hs2⟩
              · exact hsemi (Option.some_inj.1 (hc.symm.trans h))
              · exact hrb ⟨Option.some_inj.1 (hc.symm.trans h), hs2⟩
            · exact hlt
          apply ih (i + 1) (by omega) (by omega)
          exact ⟨q, by omega, hstop, fun j hj1 hj2 => hnob j (by omega) hj2⟩

/-- C7 amended: scanning forward from the end of the matched signature, a `;`
at any position, or a `}` at any position other than the very first scanned
one, encountered before the first `{`, discards the candidate — no element is
emitted; a `}` exactly at the signature's end is ignored and scanning
continues. -/
theorem C7_amended_declaration_discard (excluded : List Char → Bool)
    (filePath content : List Char) (seen : List Nat) (m : MatchInfo)
    (h : declOnlyAmended content (m.start + m.sig.length)) :
    processMatch excluded filePath content seen m = (seen, none) := by
  have hb : findBodyStart content (m.start + m.sig.length)
      (m.start + m.sig.length) = none :=
    findBodyStartFuel_none content (m.start + m.sig.length) _ _ rfl (le_refl _) h
  simp [processMatch, hb]

theorem C7_amended_witness :
    processMatch (fun _ => false) [] ['f', 'o', 'o', ';', lbrace, rbrace] []
      ⟨0, ['f', 'o', 'o'], none⟩ = ([], none) := by
  apply C7_amended_declaration_discard
  show declOnlyAmended ['f', 'o', 'o', ';', lbrace, rbrace] 3
  refine ⟨3, le_refl _, Or.inl (by decide), ?_⟩
  exact fun j hj1 hj2 => absurd hj2 (by omega)

/-- C7 counterexample: in `foo}{}` a `}` (necessarily unmatched) occurs at
the first position after the signature, before the first `{`; the claim says
the candidate is discarded, but the source's `i > startIndex +
signature.length` guard skips that `}` and extraction emits the element. -/
theorem C7_counterexample :
    declOnlySpec c7content 3 ∧
    extractElements (fun _ => false) [] c7content [c7match] = [c7elem] := by
  constructor
  · refine ⟨3, le_refl _, Or.inr (by decide), ?_⟩
    exact fun j hj1 hj2 => absurd hj2 (by omega)
  · decide

theorem braceSum_head (content : List Char) (b e : Nat) (hb : b < content.length)
    (hbe : b ≤ e) :
    braceSum content b e = braceDelta content[b] + braceSum content (b + 1) e := by
  unfold braceSum
  have hmin : b < (content.take (e + 1)).length := by
    rw [List.length_take]
    omega
  rw [List.drop_eq_getElem_cons hmin, List.map_cons, List.sum_cons,
    List.getElem_take]

theorem braceSum_empty (content : List Char) (b e : Nat) (h : e < b) :
    braceSum content b e = 0 := by
  unfold braceSum
  rw [List.drop_eq_nil_of_le]
  · rfl
  · rw [List.length_take]
    omega

theorem scanEndFuel_spec (content : List Char) : ∀ (fuel i : Nat) (count : Int),
    fuel = content.length - i →
    (∃ e, i ≤ e ∧ e < content.length ∧ count + braceSum content i e = 0) →
    ∃ e, scanEndFuel content fuel i count = some (e + 1) ∧ i ≤ e ∧
      e < content.length ∧ count + braceSum content i e = 0 ∧
      ∀ j, i ≤ j → j < e → count + braceSum content i j ≠ 0 := by
  intro fuel
  induction fuel with
  | zero =>
    intro i count hfuel hex
    obtain ⟨e, h1, h2, _⟩ := hex
    omega
  | succ fuel ih =>
    intro i count hfuel hex
    have hilen : i < content.length := by
      obtain ⟨e, h1, h2, _⟩ := hex
      omega
    obtain ⟨c, hc⟩ : ∃ c, content.get? i = some c :=
      ⟨content[i], by
        rw [List.get?_eq_getElem?]
        exact List.getElem?_eq_some.2 ⟨hilen, rfl⟩⟩
    have hci : content[i] = c := by
      rw [List.get?_eq_getElem?] at hc
      obtain ⟨_, h⟩ := List.getElem?_eq_some.1 hc
      exact h
    have hsingle : braceSum content i i = braceDelta c := by
      rw [braceSum_head content i i hilen (le_refl i),
        braceSum_empty content (i + 1) i (by omega), hci, add_zero]
    rw [scanEndFuel, hc]
    dsimp only
    by_cases hz : count + braceDelta c = 0
    · rw [if_pos hz]
      refine ⟨i, rfl, le_refl i, hilen, ?_, ?_⟩
      · rw [hsingle]; exact hz
      · intro j hj1 hj2; omega
    · rw [if_neg hz]
      obtain ⟨e, he1, he2, he3⟩ := hex
      have hene : e ≠ i := by
        intro h
        subst h
        rw [hsingle] at he3
        exact hz he3
      have hrec : count + braceSum content i e =
          count + braceDelta c + braceSum content (i + 1) e := by
        rw [braceSum_head content i e hilen (by omega), hci]
        ring
      have hex' : ∃ e, i + 1 ≤ e ∧ e < content.length ∧
          count + braceDelta c + braceSum content (i + 1) e = 0 :=
        ⟨e, by omega, he2, by rw [← hrec]; exact he3⟩
      obtain ⟨e', hsc, h1, h2, h3, h4⟩ := ih (i + 1) (count + braceDelta c)
        (by omega) hex'
      refine ⟨e', hsc, by omega, h2, ?_, ?_⟩
      · rw [braceSum_head content i e' hilen (by omega), hci, ← add_assoc]
        exact h3
      · intro j hj1 hj2
        rcases Nat.eq_or_lt_of_le hj1 with rfl | hj1'
        · rw [hsingle]; exact hz
        · rw [braceSum_head content i j hilen (by omega), hci, ← add_assoc]
          exact h4 j (by omega) hj2

theorem scanEnd_spec (content : List Char) (i : Nat) (count : Int)
    (hex : ∃ e, i ≤ e ∧ e < content.length ∧ count + braceSum content i e = 0) :
    ∃ e, scanEnd content i count = some (e + 1) ∧ i ≤ e ∧ e < content.length ∧
      count + braceSum content i e = 0 ∧
      ∀ j, i ≤ j → j < e → count + braceSum content i j ≠ 0 :=
  scanEndFuel_spec content (content.length - i) i count rfl hex

/-- C1: for a non-commented (and non-excluded, non-duplicate) signature match
whose body-start scan finds its opening brace and whose body balances,
extraction emits an element whose `elementString` starts at the match's start
offset and ends, inclusive, exactly at the position where the running brace
count (incremented on `{`, decremented on `}`) first returns to zero —
regardless of how deeply braces nest inside the body. -/
theorem C1_extraction_span (excluded : List Char → Bool)
    (filePath content : List Char) (seen : List Nat) (m : MatchInfo) (b : Nat)
    (hex : excluded m.sig = false)
    (hseen : m.start ∉ seen)
    (hcom : isInsideComment content m.start = false)
    (hbody : findBodyStart content (m.start + m.sig.length)
      (m.start + m.sig.length) = some b)
    (hbal : ∃ e, b ≤ e ∧ e < content.length ∧ braceSum content b e = 0) :
    ∃ e el,
      processMatch excluded filePath content seen m = (m.start :: seen, some el) ∧
      el.elementString = (content.take (e + 1)).drop m.start ∧
      b ≤ e ∧ e < content.length ∧ braceSum content b e = 0 ∧
      ∀ j, b ≤ j → j < e → braceSum content b j ≠ 0 := by
  have hex0 : ∃ e, b ≤ e ∧ e < content.length ∧
      (0 : Int) + braceSum content b e = 0 := by
    obtain ⟨e, h1, h2, h3⟩ := hbal
    exact ⟨e, h1, h2, by rwa [zero_add]⟩
  obtain ⟨e, hsc, h1, h2, h3, h4⟩ := scanEnd_spec content b 0 hex0
  refine ⟨e, ⟨⟨filePath, lineNumberOf content m.start, elementNameOf m⟩,
    (content.take (e + 1)).drop m.start⟩, ?_, rfl, h1, h2,
    by rwa [zero_add] at h3,
    fun j hj1 hj2 => by have := h4 j hj1 hj2; rwa [zero_add] at this⟩
  simp [processMatch, hex, hseen, hcom, hbody, hsc]

theorem C1_witness :
    isInsideComment c1content 0 = false ∧
    findBodyStart c1content 3 3 = some 3 ∧
    (3 ≤ 6 ∧ 6 < c1content.length ∧ braceSum c1content 3 6 = 0) ∧
    ∃ e el,
      processMatch (fun _ => false) [] c1content [] c1match = ([0], some el) ∧
      el.elementString = (c1content.take (e + 1)).drop 0 ∧
      3 ≤ e ∧ e < c1content.length ∧ braceSum c1content 3 e = 0 ∧
      ∀ j, 3 ≤ j → j < e → braceSum c1content 3 j ≠ 0 := by
  refine ⟨by decide, by decide, ⟨by norm_num, by decide, by decide⟩, ?_⟩
  exact C1_extraction_span (fun _ => false) [] c1content [] c1match 3 rfl
    (by simp) (by decide) (by decide) ⟨6, by norm_num, by decide, by decide⟩

theorem mem_insertDesc (q p : ElementData × ℝ) :
    ∀ l, p ∈ insertDesc q l ↔ p = q ∨ p ∈ l := by
  intro l
  induction l with
  | nil => simp [insertDesc]
  | cons a t ih =>
    rw [insertDesc]
    by_cases h : a.2 ≤ q.2
    · rw [if_pos h]
      simp [List.mem_cons]
    · rw [if_neg h]
      simp only [List.mem_cons, ih]
      tauto

theorem mem_sortDesc (p : ElementData × ℝ) : ∀ l, p ∈ sortDesc l ↔ p ∈ l := by
  intro l
  induction l with
  | nil => simp [sortDesc]
  | cons a t ih =>
    show p ∈ insertDesc a (sortDesc t) ↔ _
    rw [mem_insertDesc, ih]
    simp [List.mem_cons]

/-- C6: `findSimilar` fails with the not-found error when no record with the
requested id exists, and on success every returned element datum comes from a
stored record whose id differs from the target id — the target itself is
never in the results. -/
theorem C6_findSimilar_spec (s : DbState) (id : List Char) (threshold : ℝ)
    (limit : Nat) :
    (getEmbedding s id = none →
      findSimilar s id threshold limit =
        Except.error (ServiceError.notFound id)) ∧
    (∀ res, findSimilar s id threshold limit = Except.ok res →
      ∀ d ∈ res, ∃ item ∈ getAllEmbeddings s,
        item.id ≠ id ∧ d = item.elementData) := by
  constructor
  · intro h
    simp [findSimilar, h]
  · intro res hres d hd
    cases htar : getEmbedding s id with
    | none =>
      rw [findSimilar] at hres
      rw [htar] at hres
      exact Except.noConfusion hres
    | some target =>
      rw [findSimilar] at hres
      rw [htar] at hres
      dsimp only at hres
      obtain rfl : _ = res := Except.ok.inj hres
      obtain ⟨p, hp, hdp⟩ := List.mem_map.1 hd
      have hp1 : p ∈ sortDesc _ := List.mem_of_mem_take hp
      rw [mem_sortDesc] at hp1
      have hp2 := (List.mem_filter.1 hp1).1
      obtain ⟨item, hitem, heq⟩ := List.mem_map.1 hp2
      have hitem2 := List.mem_filter.1 hitem
      refine ⟨item, hitem2.1, bne_iff_ne.1 hitem2.2, ?_⟩
      rw [← hdp, ← heq]

theorem C6_witness :
    findSimilar dbPair ['c'] (0 : ℝ) 5 =
      Except.error (ServiceError.notFound ['c']) ∧
    findSimilar dbPair ['a'] (0 : ℝ) 5 = Except.ok [dataB] ∧
    ∃ item ∈ getAllEmbeddings dbPair, item.id ≠ ['a'] ∧
      dataB = item.elementData := by
  have hcos : cosineSimilarity [(1 : ℝ)] [(1 : ℝ)] = 1 := by
    rw [cosineSimilarity]
    rw [if_neg (by simp)]
    dsimp only
    rw [if_neg (by rw [List.map_cons, List.map_nil, List.sum_cons, List.sum_nil]; norm_num [Real.sqrt_one])]
    rw [List.zipWith_cons_cons, List.zipWith_nil_right, List.map_cons,
      List.map_nil, List.sum_cons, List.sum_nil]
    norm_num [Real.sqrt_one]
  have h1 : getEmbedding dbPair ['a'] = some ⟨['a'], dataA, [(1 : ℝ)]⟩ := rfl
  have h2 : (getAllEmbeddings dbPair).filter (fun item => item.id != ['a']) =
      [⟨['b'], dataB, [(1 : ℝ)]⟩] := rfl
  have hfs : findSimilar dbPair ['a'] (0 : ℝ) 5 = Except.ok [dataB] := by
    rw [findSimilar, h1]
    dsimp only
    rw [h2]
    rw [List.map_cons, List.map_nil, hcos]
    have hflt : List.filter (fun p : ElementData × ℝ => decide ((0 : ℝ) ≤ p.2))
        [(dataB, (1 : ℝ))] = [(dataB, (1 : ℝ))] := by
      rw [List.filter_cons, List.filter_nil]
      rw [if_pos (by norm_num)]
    rw [hflt]
    rfl
  refine ⟨(C6_findSimilar_spec dbPair ['c'] 0 5).1 rfl, hfs, ?_⟩
  exact (C6_findSimilar_spec dbPair ['a'] 0 5).2 [dataB] hfs dataB
    (List.mem_singleton.2 rfl)

theorem lookup_filter_not_contains (ids : List (List Char)) (id : List Char)
    (hid : id ∈ ids) :
    ∀ elements : List (List Char × (ElementData × List ℝ)),
      (elements.filter (fun kv => !(ids.contains kv.1))).lookup id = none := by
  intro elements
  induction elements with
  | nil => rfl
  | cons kv rest ih =>
    rw [List.filter_cons]
    by_cases h : ids.contains kv.1
    · rw [if_neg (by rw [h]; simp)]
      exact ih
    · have hb : ids.contains kv.1 = false := Bool.eq_false_iff.2 h
      rw [if_pos (by rw [hb]; rfl)]
      have hne : (id == kv.1) = false := by
        rw [beq_eq_false_iff_ne]
        intro hEq
        exact h (List.elem_iff.2 (hEq ▸ hid))
      obtain ⟨k, v⟩ := kv
      rw [List.lookup_cons]
      simp only at hne
      rw [hne]
      exact ih

theorem delete_count (elements : List (List Char × (ElementData × List ℝ))) :
    ∀ ids : List (List Char),
      (∀ id ∈ ids, (elements.lookup id).isSome = true) →
      ids.Nodup → (elements.map Prod.fst).Nodup →
      elements.length -
        (elements.filter (fun kv => !(ids.contains kv.1))).length =
        ids.length := by
  induction elements with
  | nil =>
    intro ids hcov _ _
    cases ids with
    | nil => simp
    | cons a t =>
      have := hcov a (List.mem_cons_self a t)
      simp [List.lookup] at this
  | cons kv rest ih =>
    intro ids hcov hnd hkeys
    have hkey1 : kv.1 ∉ rest.map Prod.fst := (List.nodup_cons.1 hkeys).1
    have hkeys2 : (rest.map Prod.fst).Nodup := (List.nodup_cons.1 hkeys).2
    have hflen := List.length_filter_le
      (fun kv : List Char × (ElementData × List ℝ) => !(ids.contains kv.1)) rest
    by_cases hmem : kv.1 ∈ ids
    · have hc : ids.contains kv.1 = true := List.elem_iff.2 hmem
      rw [List.filter_cons, if_neg (by rw [hc]; simp)]
      have hcov' : ∀ id ∈ ids.erase kv.1, (rest.lookup id).isSome = true := by
        intro id hid
        obtain ⟨hne, hin⟩ := (List.Nodup.mem_erase_iff hnd).1 hid
        have := hcov id hin
        obtain ⟨k, v⟩ := kv
        rw [List.lookup_cons] at this
        simp only at hne
        rw [show (id == k) = false from beq_eq_false_iff_ne.2 hne] at this
        exact this
      have hcongr : rest.filter (fun kv' => !(ids.contains kv'.1)) =
          rest.filter (fun kv' => !((ids.erase kv.1).contains kv'.1)) := by
        apply List.filter_congr
        intro kv' hkv'
        have hne : kv'.1 ≠ kv.1 := by
          intro hEq
          exact hkey1 (hEq ▸ List.mem_map_of_mem Prod.fst hkv')
        by_cases hin : kv'.1 ∈ ids
        · have h1 : ids.contains kv'.1 = true := List.elem_iff.2 hin
          have h2 : (ids.erase kv.1).contains kv'.1 = true :=
            List.elem_iff.2 ((List.Nodup.mem_erase_iff hnd).2 ⟨hne, hin⟩)
          rw [h1, h2]
        · have h1 : ids.contains kv'.1 = false := by
            rw [Bool.eq_false_iff]
            intro h
            exact hin (List.elem_iff.1 h)
          have h2 : (ids.erase kv.1).contains kv'.1 = false := by
            rw [Bool.eq_false_iff]
            intro h
            exact hin ((List.Nodup.mem_erase_iff hnd).1 (List.elem_iff.1 h)).2
          rw [h1, h2]
      have hih := ih (ids.erase kv.1) hcov' (List.Nodup.erase _ hnd) hkeys2
      rw [hcongr]
      rw [List.length_erase_of_mem hmem] at hih
      have hlen1 : 1 ≤ ids.length := List.length_pos.2 (by
        intro h
        rw [h] at hmem
        exact List.not_mem_nil _ hmem)
      rw [hcongr] at hflen
      simp only [List.length_cons]
      omega
    · have hc : ids.contains kv.1 = false := by
        rw [Bool.eq_false_iff]
        intro h
        exact hmem (List.elem_iff.1 h)
      rw [List.filter_cons, if_pos (by rw [hc]; rfl)]
      have hcov' : ∀ id ∈ ids, (rest.lookup id).isSome = true := by
        intro id hid
        have hne : id ≠ kv.1 := by
          intro hEq
          exact hmem (hEq ▸ hid)
        have := hcov id hid
        obtain ⟨k, v⟩ := kv
        rw [List.lookup_cons] at this
        simp only at hne
        rw [show (id == k) = false from beq_eq_false_iff_ne.2 hne] at this
        exact this
      have hih := ih ids hcov' hnd hkeys2
      simp only [List.length_cons]
      omega

/-- C8: `deleteAllEmbeddings` removes every tracked record, clears the
id-set, and returns the number of records removed (0 when the store is
already empty, in which case the state is untouched); every embedding-cache
entry is left unchanged — a cache lookup after the wipe returns the same
value as before it.  The hypotheses state that the modelled Valkey state is
well formed: the id-set and the record keys are duplicate-free and every
tracked id has a record. -/
theorem C8_deleteAll_spec (s : DbState)
    (hids : s.ids.Nodup)
    (hkeys : (s.elements.map Prod.fst).Nodup)
    (hcov : ∀ id ∈ s.ids, (s.elements.lookup id).isSome = true) :
    (∀ id ∈ s.ids, (deleteAllEmbeddings s).2.elements.lookup id = none) ∧
    (deleteAllEmbeddings s).2.ids = [] ∧
    (deleteAllEmbeddings s).1 =
      s.elements.length - (deleteAllEmbeddings s).2.elements.length ∧
    (s.ids = [] → (deleteAllEmbeddings s).1 = 0 ∧ (deleteAllEmbeddings s).2 = s) ∧
    (∀ fh en ln, getCachedEmbedding (deleteAllEmbeddings s).2 fh en ln =
      getCachedEmbedding s fh en ln) := by
  by_cases hempty : s.ids = []
  · rw [deleteAllEmbeddings, if_pos hempty]
    exact ⟨fun id hid => absurd (hempty ▸ hid) (List.not_mem_nil id),
      hempty, by simp, fun _ => ⟨rfl, rfl⟩, fun _ _ _ => rfl⟩
  · rw [deleteAllEmbeddings, if_neg hempty]
    refine ⟨?_, rfl, ?_, fun h => absurd h hempty, fun _ _ _ => rfl⟩
    · intro id hid
      exact lookup_filter_not_contains s.ids id hid s.elements
    · have := delete_count s.elements s.ids hcov hids hkeys
      have hflen := List.length_filter_le
        (fun kv : List Char × (ElementData × List ℝ) =>
          !(s.ids.contains kv.1)) s.elements
      dsimp only
      omega

theorem C8_witness :
    (deleteAllEmbeddings db8).1 = 1 ∧
    (deleteAllEmbeddings db8).2.ids = [] ∧
    (deleteAllEmbeddings db8).2.elements.lookup ['a'] = none ∧
    getCachedEmbedding (deleteAllEmbeddings db8).2 ['h'] ['n'] 3 =
      getCachedEmbedding db8 ['h'] ['n'] 3 := by
  have h := C8_deleteAll_spec db8 (by decide) (by decide) (by decide)
  exact ⟨rfl, h.2.1, h.1 ['a'] (by decide), h.2.2.2.2 ['h'] ['n'] 3⟩

theorem C2_witness :
    cosineSimilarity [(1 : ℝ), 0] [1, 2, 3] = 0 ∧
    -1 ≤ cosineSimilarity [(1 : ℝ), 0] [0, 1] ∧
    cosineSimilarity [(1 : ℝ), 0] [0, 1] ≤ 1 := by
  have hma : magnitude [(1 : ℝ), 0] ≠ 0 := by
    have h1 : sumSq [(1 : ℝ), 0] = 1 := by norm_num [sumSq]
    simp [magnitude, h1]
  have hmb : magnitude [(0 : ℝ), 1] ≠ 0 := by
    have h1 : sumSq [(0 : ℝ), 1] = 1 := by norm_num [sumSq]
    simp [magnitude, h1]
  refine ⟨(C2_cosineSimilarity_spec _ _).1 (Or.inl (by norm_num)), ?_⟩
  exact ((C2_cosineSimilarity_spec _ _).2 (by norm_num) hma hmb).2

end Dry
